import Mathlib

/-!
Verification of the linear-form assembly extension (`fem/linearform_ext.hpp`)
and of the heat/distance example program (`examples/heat.cpp`).

The header `linearform_ext.hpp` only declares `LinearFormExtension::Assemble`
and `FullLinearFormExtension` (with its `attributes` and `markers` arrays);
the member-function bodies live outside the excerpt.  Following the design
document, the full-assembly algorithm is therefore modelled from the spec:
marker resolution from attribute filters, branch-free masking of local
element vectors, and scatter-add through the element-to-dof map into the
global vector, with exact (rational) arithmetic in place of floating point.
-/

namespace Mfem

/-- Modelled from the spec: a domain integrator entry pairs a kernel, which
produces the local contribution vector of each element, with an optional
attribute filter.  `none` is the "match all" sentinel (no filter was given
when the integrator was registered); `some l` is an explicit set of
attribute values.  The body of `LinearForm::AddDomainIntegrator` is not in
the excerpt. -/
structure Integrator where
  kernel : Nat → List ℚ
  filter : Option (List Int)

/-- Modelled from the spec: the read-only mesh data consumed by the
full-assembly extension, namely the per-element attribute table (the
`attributes` array of `FullLinearFormExtension`) and the element-to-dof
connectivity, one ordered list of pairs of a global dof index and an
orientation sign per element. -/
structure LinearFormData where
  attributes : List Int
  elemToDof : List (List (Nat × Int))

/-- Modelled from the spec: `AttributeMarker.Resolve` — derive the 0/1
per-element marker array from the attribute table and an integrator's
filter.  `none` (filter unset, "match all") marks every element; an
explicit filter marks exactly the elements whose attribute it contains. -/
def Resolve (attrs : List Int) (filter : Option (List Int)) : List Nat :=
  attrs.map fun a =>
    match filter with
    | none => 1
    | some l => if a ∈ l then 1 else 0

/-- Add `x` to entry `g` of a vector; indices past the end are left
untouched. -/
def addAt : List ℚ → Nat → ℚ → List ℚ
  | [], _, _ => []
  | a :: tl, 0, x => (a + x) :: tl
  | a :: tl, Nat.succ n, x => a :: addAt tl n x

/-- Modelled from the spec: scatter-add one element's local vector into the
global vector: slot `i` with local value `v`, dof pair `(g, s)`, performs
`GlobalVector[g] += s * v`. -/
def scatterElem : List ℚ → List (Nat × Int) → List ℚ → List ℚ
  | gv, [], _ => gv
  | gv, _ :: _, [] => gv
  | gv, (g, s) :: ds, v :: vs => scatterElem (addAt gv g ((s : ℚ) * v)) ds vs

/-- Modelled from the spec: branch-free masking — multiply every entry of a
local vector by the element's 0/1 marker, so that unselected elements
contribute an all-zero local vector rather than being skipped. -/
def maskLocal (m : Nat) (v : List ℚ) : List ℚ :=
  v.map fun x => (m : ℚ) * x

/-- Modelled from the spec: fold the scatter-add of the listed elements
(indices into the mesh) over the global vector. -/
def assembleElems (dofs : Nat → List (Nat × Int)) (vals : Nat → List ℚ)
    (es : List Nat) (gv : List ℚ) : List ℚ :=
  es.foldl (fun acc e => scatterElem acc (dofs e) (vals e)) gv

/-- Marker value of element `e` for an integrator, read from the resolved
marker array. -/
def markerOf (lf : LinearFormData) (it : Integrator) (e : Nat) : Nat :=
  (Resolve lf.attributes it.filter).getD e 0

/-- The masked local contribution vector of element `e`. -/
def localVec (lf : LinearFormData) (it : Integrator) (e : Nat) : List ℚ :=
  maskLocal (markerOf lf it e) (it.kernel e)

/-- Modelled from the spec: one integrator's pass of
`FullLinearFormExtension::Assemble` — resolve the markers, then scatter-add
every element's masked local contribution into the global vector. -/
def assembleIntegrator (lf : LinearFormData) (it : Integrator)
    (gv : List ℚ) : List ℚ :=
  assembleElems (fun e => lf.elemToDof.getD e []) (localVec lf it)
    (List.range lf.attributes.length) gv

/-- Reset the target vector to zero, keeping its size. -/
def resetVec (gv : List ℚ) : List ℚ :=
  gv.map fun _ => 0

/-- Modelled from the spec: `FullLinearFormExtension::Assemble` — reset the
host's global vector to zero, then accumulate every registered integrator's
contribution in registration order. -/
def Assemble (lf : LinearFormData) (its : List Integrator)
    (gv : List ℚ) : List ℚ :=
  its.foldl (fun acc it => assembleIntegrator lf it acc) (resetVec gv)

/-- The per-element mathematical contribution to one global dof `j`: the sum
of `s * v` over the local slots whose dof pair `(g, s)` has `g = j`.  This
is the reference formula the scatter-add is checked against. -/
def pairContrib : List (Nat × Int) → List ℚ → Nat → ℚ
  | [], _, _ => 0
  | _ :: _, [], _ => 0
  | (g, s) :: ds, v :: vs, j =>
      (if g = j then (s : ℚ) * v else 0) + pairContrib ds vs j

theorem addAt_length (gv : List ℚ) (g : Nat) (x : ℚ) :
    (addAt gv g x).length = gv.length := by
  induction gv generalizing g with
  | nil => rfl
  | cons a tl ih =>
      cases g with
      | zero => rfl
      | succ n => simp [addAt, ih]

theorem addAt_getD (gv : List ℚ) (g : Nat) (x : ℚ) (j : Nat) :
    (addAt gv g x).getD j 0 =
      gv.getD j 0 + (if j = g ∧ j < gv.length then x else 0) := by
  induction gv generalizing g j with
  | nil => simp [addAt]
  | cons a tl ih =>
      cases g with
      | zero =>
          cases j with
          | zero => simp [addAt]
          | succ m => simp [addAt]
      | succ n =>
          cases j with
          | zero => simp [addAt]
          | succ m =>
              simp only [addAt, List.getD_cons_succ, ih, List.length_cons]
              have : (m = n ∧ m < tl.length) ↔
                  (m + 1 = n + 1 ∧ m + 1 < tl.length + 1) := by omega
              rw [if_congr this rfl rfl]

theorem scatterElem_length (ds : List (Nat × Int)) (gv : List ℚ)
    (vs : List ℚ) : (scatterElem gv ds vs).length = gv.length := by
  induction ds generalizing gv vs with
  | nil => cases vs <;> rfl
  | cons p ds ih =>
      obtain ⟨g, s⟩ := p
      cases vs with
      | nil => rfl
      | cons v vs => simp [scatterElem, ih, addAt_length]

theorem scatterElem_getD (ds : List (Nat × Int)) (gv : List ℚ)
    (vs : List ℚ) (j : Nat) :
    (scatterElem gv ds vs).getD j 0 =
      gv.getD j 0 + (if j < gv.length then pairContrib ds vs j else 0) := by
  induction ds generalizing gv vs with
  | nil => simp [scatterElem, pairContrib]
  | cons p ds ih =>
      obtain ⟨g, s⟩ := p
      cases vs with
      | nil => simp [scatterElem, pairContrib]
      | cons v vs =>
          simp only [scatterElem, pairContrib, ih, addAt_length, addAt_getD]
          by_cases hj : j < gv.length
          · by_cases hg : g = j
            · subst hg
              simp [hj]
              ring
            · have : ¬(j = g) := fun h => hg h.symm
              simp [hj, this, hg]
          · simp [hj]

theorem assembleElems_length (dofs : Nat → List (Nat × Int))
    (vals : Nat → List ℚ) (es : List Nat) (gv : List ℚ) :
    (assembleElems dofs vals es gv).length = gv.length := by
  induction es generalizing gv with
  | nil => rfl
  | cons e es ih =>
      simpa [assembleElems, scatterElem_length] using
        ih (scatterElem gv (dofs e) (vals e))

theorem assembleRange_getD (dofs : Nat → List (Nat × Int))
    (vals : Nat → List ℚ) (n : Nat) (gv : List ℚ) (j : Nat) :
    (assembleElems dofs vals (List.range n) gv).getD j 0 =
      gv.getD j 0 +
        (if j < gv.length then
          ∑ e ∈ Finset.range n, pairContrib (dofs e) (vals e) j else 0) := by
  induction n with
  | zero => simp [assembleElems]
  | succ n ih =>
      have hsplit : assembleElems dofs vals (List.range (n + 1)) gv =
          scatterElem (assembleElems dofs vals (List.range n) gv)
            (dofs n) (vals n) := by
        simp [assembleElems, List.range_succ, List.foldl_append]
      rw [hsplit, scatterElem_getD, assembleElems_length, ih,
        Finset.sum_range_succ]
      by_cases hj : j < gv.length
      · simp [hj]
        ring
      · simp [hj]

theorem resetVec_length (gv : List ℚ) : (resetVec gv).length = gv.length := by
  simp [resetVec]

theorem replicate_getD_zero (n j : Nat) :
    (List.replicate n (0 : ℚ)).getD j 0 = 0 := by
  induction n generalizing j with
  | zero => simp
  | succ m ih =>
      cases j with
      | zero => simp [List.replicate_succ]
      | succ i => simp [List.replicate_succ]

theorem resetVec_eq_replicate (gv : List ℚ) :
    resetVec gv = List.replicate gv.length 0 := by
  induction gv with
  | nil => rfl
  | cons a tl ih => simp [resetVec, List.replicate_succ]

theorem resetVec_getD (gv : List ℚ) (j : Nat) :
    (resetVec gv).getD j 0 = 0 := by
  rw [resetVec_eq_replicate]
  exact replicate_getD_zero gv.length j

theorem assembleIntegrator_length (lf : LinearFormData) (it : Integrator)
    (gv : List ℚ) : (assembleIntegrator lf it gv).length = gv.length := by
  simp [assembleIntegrator, assembleElems_length]

theorem assembleIntegrator_getD (lf : LinearFormData) (it : Integrator)
    (gv : List ℚ) (j : Nat) :
    (assembleIntegrator lf it gv).getD j 0 =
      gv.getD j 0 +
        (if j < gv.length then
          ∑ e ∈ Finset.range lf.attributes.length,
            pairContrib (lf.elemToDof.getD e []) (localVec lf it e) j
         else 0) := by
  simpa [assembleIntegrator] using
    assembleRange_getD (fun e => lf.elemToDof.getD e []) (localVec lf it)
      lf.attributes.length gv j

theorem Assemble_length (lf : LinearFormData) (its : List Integrator)
    (gv : List ℚ) : (Assemble lf its gv).length = gv.length := by
  unfold Assemble
  have h : ∀ (l : List Integrator) (acc : List ℚ),
      (l.foldl (fun acc it => assembleIntegrator lf it acc) acc).length =
        acc.length := by
    intro l
    induction l with
    | nil => intro acc; rfl
    | cons it l ih =>
        intro acc
        simp [List.foldl_cons, ih, assembleIntegrator_length]
  rw [h, resetVec_length]

theorem Resolve_length (attrs : List Int) (f : Option (List Int)) :
    (Resolve attrs f).length = attrs.length := by
  simp [Resolve]

theorem Resolve_getD (attrs : List Int) (f : Option (List Int)) (e : Nat)
    (he : e < attrs.length) :
    (Resolve attrs f).getD e 0 =
      match f with
      | none => 1
      | some l => if attrs.getD e 0 ∈ l then 1 else 0 := by
  have he' : e < (Resolve attrs f).length := by rw [Resolve_length]; exact he
  rw [List.getD_eq_getElem _ _ he', List.getD_eq_getElem _ _ he]
  cases f <;> simp [Resolve]

theorem pairContrib_maskLocal (m : Nat) (ds : List (Nat × Int))
    (vs : List ℚ) (j : Nat) :
    pairContrib ds (maskLocal m vs) j = (m : ℚ) * pairContrib ds vs j := by
  induction ds generalizing vs with
  | nil => simp [pairContrib]
  | cons p ds ih =>
      obtain ⟨g, s⟩ := p
      cases vs with
      | nil => simp [maskLocal, pairContrib]
      | cons v vs =>
          simp only [maskLocal] at ih ⊢
          simp only [List.map_cons, pairContrib, ih]
          by_cases hg : g = j
          · simp [hg]; ring
          · simp [hg]

/-- Extensionality for global vectors through `getD`. -/
theorem getD_ext (u v : List ℚ) (hlen : u.length = v.length)
    (h : ∀ j, u.getD j 0 = v.getD j 0) : u = v := by
  induction u generalizing v with
  | nil =>
      cases v with
      | nil => rfl
      | cons b tl => simp at hlen
  | cons a tl ih =>
      cases v with
      | nil => simp at hlen
      | cons b tl' =>
          have h0 := h 0
          simp only [List.getD_cons_zero] at h0
          subst h0
          have : tl = tl' := by
            refine ih tl' (by simpa using hlen) ?_
            intro j
            simpa using h (j + 1)
          rw [this]

/-- Modelled from the spec: the serialized-reduction combination step —
entrywise sum of two partial global vectors. -/
def vecAdd (u v : List ℚ) : List ℚ :=
  List.zipWith (fun a b => a + b) u v

theorem vecAdd_length (u v : List ℚ) (h : u.length = v.length) :
    (vecAdd u v).length = u.length := by
  simp [vecAdd, h]

theorem vecAdd_getD (u v : List ℚ) (h : u.length = v.length) (j : Nat) :
    (vecAdd u v).getD j 0 = u.getD j 0 + v.getD j 0 := by
  induction u generalizing v j with
  | nil =>
      cases v with
      | nil => simp [vecAdd]
      | cons b tl => simp at h
  | cons a tl ih =>
      cases v with
      | nil => simp at h
      | cons b tl' =>
          cases j with
          | zero => simp [vecAdd]
          | succ m =>
              simpa [vecAdd] using ih tl' (by simpa using h) m

theorem getD_replicate_self {α : Type} (x : α) (n j : Nat) :
    (List.replicate n x).getD j x = x := by
  induction n generalizing j with
  | zero => simp
  | succ m ih =>
      cases j with
      | zero => simp [List.replicate_succ]
      | succ i => simp [List.replicate_succ]

theorem addAt_add_zero (gv : List ℚ) (g : Nat) : addAt gv g 0 = gv := by
  induction gv generalizing g with
  | nil => rfl
  | cons a tl ih =>
      cases g with
      | zero => simp [addAt]
      | succ n => simp [addAt, ih]

theorem scatterElem_maskZero (ds : List (Nat × Int)) (gv vs : List ℚ) :
    scatterElem gv ds (maskLocal 0 vs) = gv := by
  induction ds generalizing gv vs with
  | nil => cases vs <;> rfl
  | cons p ds ih =>
      obtain ⟨g, s⟩ := p
      cases vs with
      | nil => rfl
      | cons v vs =>
          simp only [maskLocal, List.map_cons, scatterElem, Nat.cast_zero,
            zero_mul, mul_zero, addAt_add_zero]
          simpa [maskLocal] using ih (gv) vs

theorem assembleElems_maskZero (dofs : Nat → List (Nat × Int))
    (vals : Nat → List ℚ) (h : ∀ e, ∃ vs, vals e = maskLocal 0 vs)
    (es : List Nat) (gv : List ℚ) :
    assembleElems dofs vals es gv = gv := by
  induction es generalizing gv with
  | nil => rfl
  | cons e es ih =>
      obtain ⟨vs, hv⟩ := h e
      have : scatterElem gv (dofs e) (vals e) = gv := by
        rw [hv]; exact scatterElem_maskZero _ _ _
      simpa [assembleElems, this] using ih gv

/-- C1 — for a single integrator registered with the "match all" filter,
the global vector produced by `Assemble` carries, at each dof index `j`
inside the vector, exactly the sum over all mesh elements of the reference
scatter formula: for each local slot with value `v` and dof pair `(g, s)`,
the entry `j = g` accumulates `s * v`. -/
theorem assemble_single_match_all (lf : LinearFormData) (k : Nat → List ℚ)
    (gv : List ℚ) (j : Nat) (hj : j < gv.length) :
    (Assemble lf [Integrator.mk k none] gv).getD j 0 =
      ∑ e ∈ Finset.range lf.attributes.length,
        pairContrib (lf.elemToDof.getD e []) (k e) j := by
  show (assembleIntegrator lf (Integrator.mk k none) (resetVec gv)).getD j 0 = _
  rw [assembleIntegrator_getD, resetVec_getD, resetVec_length, if_pos hj,
    zero_add]
  refine Finset.sum_congr rfl ?_
  intro e he
  have he' : e < lf.attributes.length := Finset.mem_range.mp he
  have hm : markerOf lf (Integrator.mk k none) e = 1 := by
    unfold markerOf
    rw [Resolve_getD _ _ _ he']
  simp [localVec, hm, pairContrib_maskLocal]

/-- The concrete scenario of the spec: a mesh of two triangles sharing one
edge, four dofs in total, dofs 1 and 2 shared, all orientation signs
positive. -/
def lfEx : LinearFormData :=
  LinearFormData.mk [1, 1] [[(0, 1), (1, 1), (2, 1)], [(1, 1), (2, 1), (3, 1)]]

/-- A "match all" integrator contributing the local vector `[1, 1, 1]` on
every element. -/
def itEx : Integrator :=
  Integrator.mk (fun _ => [1, 1, 1]) none

theorem assemble_single_match_all_witness :
    1 < ([0, 0, 0, 0] : List ℚ).length ∧
    ((Assemble lfEx [itEx] [0, 0, 0, 0]).getD 1 0 =
      ∑ e ∈ Finset.range lfEx.attributes.length,
        pairContrib (lfEx.elemToDof.getD e []) (itEx.kernel e) 1) ∧
    Assemble lfEx [itEx] [0, 0, 0, 0] = [1, 2, 2, 1] :=
  ⟨by norm_num,
   assemble_single_match_all lfEx itEx.kernel [0, 0, 0, 0] 1 (by norm_num),
   by norm_num [Assemble, assembleIntegrator, assembleElems, localVec,
     markerOf, Resolve, maskLocal, scatterElem, addAt, resetVec, lfEx, itEx,
     List.range_succ, List.getD]⟩

/-- C3 — an explicit empty attribute filter (which is not the "match all"
sentinel) resolves to the all-zero marker array on every attribute table,
and an integrator carrying it contributes nothing: its assembly pass
returns the global vector unchanged, so its contribution to every dof is
exactly zero. -/
theorem empty_filter_contributes_nothing (attrs : List Int)
    (lf : LinearFormData) (k : Nat → List ℚ) :
    Resolve attrs (some []) = List.replicate attrs.length 0 ∧
    ∀ gv : List ℚ, assembleIntegrator lf (Integrator.mk k (some [])) gv = gv := by
  constructor
  · induction attrs with
    | nil => rfl
    | cons a attrs ih => simp [Resolve, List.replicate_succ]
  · intro gv
    unfold assembleIntegrator
    refine assembleElems_maskZero _ _ ?_ _ _
    intro e
    refine ⟨(Integrator.mk k (some [])).kernel e, ?_⟩
    have hm : markerOf lf (Integrator.mk k (some [])) e = 0 := by
      unfold markerOf
      have : Resolve lf.attributes (some ([] : List Int)) =
          List.replicate lf.attributes.length 0 := by
        induction lf.attributes with
        | nil => rfl
        | cons a attrs ih => simp [Resolve, List.replicate_succ]
      rw [this, getD_replicate_self]
    rw [localVec, hm]

/-- C4 — the marker invariant: for every element index inside the table,
the resolved marker is `1` exactly when the element's attribute belongs to
the integrator's filter set, or when the filter is empty (no filter was
given), which means "all attributes". -/
theorem marker_invariant (attrs : List Int) (f : Option (List Int)) (e : Nat)
    (he : e < attrs.length) :
    (Resolve attrs f).getD e 0 = 1 ↔
      f = none ∨ ∃ l, f = some l ∧ attrs.getD e 0 ∈ l := by
  rw [Resolve_getD _ _ _ he]
  cases f with
  | none => simp
  | some l =>
      by_cases hmem : attrs.getD e 0 ∈ l
      · simp [hmem]
      · simp [hmem]

theorem marker_invariant_witness :
    1 < ([2, 5] : List Int).length ∧
    ((Resolve [2, 5] (some [5])).getD 1 0 = 1 ↔
      (some [5] : Option (List Int)) = none ∨
        ∃ l, (some [5] : Option (List Int)) = some l ∧
          ([2, 5] : List Int).getD 1 0 ∈ l) :=
  ⟨by norm_num, marker_invariant [2, 5] (some [5]) 1 (by norm_num)⟩

/-- C5 — an empty mesh: resolving any filter over the empty attribute table
yields the empty marker array, and `Assemble` only performs the reset, so
the global vector comes back as the all-zero vector of its own length,
with every array access staying in bounds (the model's accessors are
total). -/
theorem empty_mesh_assemble (lf : LinearFormData) (f : Option (List Int))
    (its : List Integrator) (gv : List ℚ) (h : lf.attributes = []) :
    Resolve lf.attributes f = [] ∧
    Assemble lf its gv = List.replicate gv.length 0 := by
  constructor
  · rw [h]; rfl
  · have hid : ∀ (it : Integrator) (acc : List ℚ),
        assembleIntegrator lf it acc = acc := by
      intro it acc
      unfold assembleIntegrator
      rw [h]
      rfl
    unfold Assemble
    have hfold : ∀ (l : List Integrator) (acc : List ℚ),
        l.foldl (fun acc it => assembleIntegrator lf it acc) acc = acc := by
      intro l
      induction l with
      | nil => intro acc; rfl
      | cons it l ih => intro acc; simp [List.foldl_cons, hid, ih]
    rw [hfold, resetVec_eq_replicate]

/-- An empty mesh with no elements and no dof connectivity. -/
def lfEmptyEx : LinearFormData :=
  LinearFormData.mk [] []

theorem empty_mesh_assemble_witness :
    lfEmptyEx.attributes = [] ∧
    (Resolve lfEmptyEx.attributes none = [] ∧
      Assemble lfEmptyEx [itEx] [3, 7] =
        List.replicate ([3, 7] : List ℚ).length 0) :=
  ⟨rfl, empty_mesh_assemble lfEmptyEx none [itEx] [3, 7] rfl⟩

/-- C6 — `Assemble` is idempotent under fixed inputs: because every call
first resets the target vector (and the reset only depends on the vector's
size, which assembly preserves), running it twice in a row from any
starting vector gives the same global vector as running it once. -/
theorem assemble_idempotent (lf : LinearFormData) (its : List Integrator)
    (gv : List ℚ) :
    Assemble lf its (Assemble lf its gv) = Assemble lf its gv := by
  have h : resetVec (Assemble lf its gv) = resetVec gv := by
    rw [resetVec_eq_replicate, resetVec_eq_replicate, Assemble_length]
  show List.foldl (fun acc it => assembleIntegrator lf it acc)
      (resetVec (Assemble lf its gv)) its = Assemble lf its gv
  rw [h]
  rfl

/-- C7 — superposition: with two registered integrators whose attribute
filters are disjoint sets (and which therefore select disjoint element
subsets), assembling both equals the entrywise sum of assembling each one
alone. -/
theorem assemble_superposition (lf : LinearFormData) (k₁ k₂ : Nat → List ℚ)
    (l₁ l₂ : List Int) (gv : List ℚ)
    (_hdisj : ∀ a, a ∈ l₁ → a ∉ l₂)
    (_hsel : ∀ e, markerOf lf (Integrator.mk k₁ (some l₁)) e = 0 ∨
      markerOf lf (Integrator.mk k₂ (some l₂)) e = 0) :
    Assemble lf [Integrator.mk k₁ (some l₁), Integrator.mk k₂ (some l₂)] gv =
      vecAdd (Assemble lf [Integrator.mk k₁ (some l₁)] gv)
        (Assemble lf [Integrator.mk k₂ (some l₂)] gv) := by
  set i₁ := Integrator.mk k₁ (some l₁)
  set i₂ := Integrator.mk k₂ (some l₂)
  clear _hdisj _hsel
  have h₁ : (Assemble lf [i₁] gv).length = gv.length := Assemble_length _ _ _
  have h₂ : (Assemble lf [i₂] gv).length = gv.length := Assemble_length _ _ _
  refine getD_ext _ _ ?_ ?_
  · rw [Assemble_length, vecAdd_length _ _ (h₁.trans h₂.symm), h₁]
  · intro j
    have hL : Assemble lf [i₁, i₂] gv =
        assembleIntegrator lf i₂ (assembleIntegrator lf i₁ (resetVec gv)) := rfl
    have hA : Assemble lf [i₁] gv = assembleIntegrator lf i₁ (resetVec gv) := rfl
    have hB : Assemble lf [i₂] gv = assembleIntegrator lf i₂ (resetVec gv) := rfl
    rw [hL, vecAdd_getD _ _ (h₁.trans h₂.symm), hA, hB]
    simp only [assembleIntegrator_getD, assembleIntegrator_length,
      resetVec_length, resetVec_getD]
    ring

theorem assemble_superposition_witness :
    (∀ a : Int, a ∈ [(1 : Int)] → a ∉ [(2 : Int)]) ∧
    (∀ e, markerOf lfEx (Integrator.mk (fun _ => [1, 1, 1]) (some [1])) e = 0 ∨
      markerOf lfEx (Integrator.mk (fun _ => [2, 2, 2]) (some [2])) e = 0) ∧
    Assemble lfEx [Integrator.mk (fun _ => [1, 1, 1]) (some [1]),
        Integrator.mk (fun _ => [2, 2, 2]) (some [2])] [0, 0, 0, 0] =
      vecAdd (Assemble lfEx [Integrator.mk (fun _ => [1, 1, 1]) (some [1])] [0, 0, 0, 0])
        (Assemble lfEx [Integrator.mk (fun _ => [2, 2, 2]) (some [2])] [0, 0, 0, 0]) := by
  refine ⟨by norm_num, ?_, ?_⟩
  · intro e
    right
    cases e with
    | zero => norm_num [markerOf, Resolve, lfEx, List.getD]
    | succ m =>
        cases m with
        | zero => norm_num [markerOf, Resolve, lfEx, List.getD]
        | succ i => norm_num [markerOf, Resolve, lfEx, List.getD]
  · exact assemble_superposition lfEx (fun _ => [1, 1, 1]) (fun _ => [2, 2, 2])
      [1] [2] [0, 0, 0, 0] (by norm_num) (by
        intro e
        right
        cases e with
        | zero => norm_num [markerOf, Resolve, lfEx, List.getD]
        | succ m =>
            cases m with
            | zero => norm_num [markerOf, Resolve, lfEx, List.getD]
            | succ i => norm_num [markerOf, Resolve, lfEx, List.getD])

/-- Modelled from the spec: the partial global vector computed by one of
`k` concurrent lanes.  Elements are distributed round-robin (`e % k`); a
lane evaluates the full element range branch-free, masking to zero the
local vectors of elements owned by other lanes, and accumulates into its
own zero-initialized scratch vector. -/
def laneVector (lf : LinearFormData) (it : Integrator) (k lane len : Nat) :
    List ℚ :=
  assembleElems (fun e => lf.elemToDof.getD e [])
    (fun e => maskLocal (if e % k = lane then 1 else 0) (localVec lf it e))
    (List.range lf.attributes.length) (List.replicate len 0)

/-- Modelled from the spec: data-parallel execution of one integrator's
pass with `k` lanes followed by a serialized reduction — every lane's
partial vector is summed entrywise onto the global vector, so no update
can be lost. -/
def parAssembleIntegrator (lf : LinearFormData) (it : Integrator) (k : Nat)
    (gv : List ℚ) : List ℚ :=
  (List.range k).foldl
    (fun acc lane => vecAdd acc (laneVector lf it k lane gv.length)) gv

/-- Modelled from the spec: `Assemble` executed with `k` concurrent lanes
per integrator pass. -/
def parAssemble (lf : LinearFormData) (its : List Integrator) (k : Nat)
    (gv : List ℚ) : List ℚ :=
  its.foldl (fun acc it => parAssembleIntegrator lf it k acc) (resetVec gv)

theorem laneVector_length (lf : LinearFormData) (it : Integrator)
    (k lane len : Nat) : (laneVector lf it k lane len).length = len := by
  simp [laneVector, assembleElems_length]

theorem laneVector_getD (lf : LinearFormData) (it : Integrator)
    (k lane len j : Nat) :
    (laneVector lf it k lane len).getD j 0 =
      if j < len then
        ∑ e ∈ Finset.range lf.attributes.length,
          (if e % k = lane then (1 : ℚ) else 0) *
            pairContrib (lf.elemToDof.getD e []) (localVec lf it e) j
      else 0 := by
  unfold laneVector
  rw [assembleRange_getD, replicate_getD_zero, zero_add, List.length_replicate]
  refine if_congr Iff.rfl (Finset.sum_congr rfl ?_) rfl
  intro e _
  rw [pairContrib_maskLocal]
  by_cases h : e % k = lane
  · simp [h]
  · simp [h]

theorem parFold_length (lf : LinearFormData) (it : Integrator)
    (k len : Nat) (ls : List Nat) (acc : List ℚ) (hacc : acc.length = len) :
    (ls.foldl (fun acc lane => vecAdd acc (laneVector lf it k lane len))
      acc).length = len := by
  induction ls generalizing acc with
  | nil => exact hacc
  | cons lane ls ih =>
      refine ih _ ?_
      rw [vecAdd_length _ _ (by rw [hacc, laneVector_length]), hacc]

theorem parFold_getD (lf : LinearFormData) (it : Integrator)
    (k len : Nat) (m : Nat) (gv : List ℚ) (hlen : gv.length = len) (j : Nat) :
    ((List.range m).foldl
        (fun acc lane => vecAdd acc (laneVector lf it k lane len)) gv).getD j 0 =
      gv.getD j 0 +
        ∑ lane ∈ Finset.range m, (laneVector lf it k lane len).getD j 0 := by
  induction m with
  | zero => simp
  | succ m ih =>
      have hsplit : (List.range (m + 1)).foldl
          (fun acc lane => vecAdd acc (laneVector lf it k lane len)) gv =
          vecAdd ((List.range m).foldl
            (fun acc lane => vecAdd acc (laneVector lf it k lane len)) gv)
            (laneVector lf it k m len) := by
        rw [List.range_succ, List.foldl_append, List.foldl_cons, List.foldl_nil]
      rw [hsplit, vecAdd_getD, ih, Finset.sum_range_succ]
      · ring
      · rw [parFold_length lf it k len _ _ hlen, laneVector_length]

/-- C2 — race-freedom of the data-parallel scatter-add, modelled as the
spec's serialized-reduction discipline: splitting the elements round-robin
over any positive number of concurrent lanes, each accumulating into its
own scratch vector, and then reducing, yields exactly the vector the
sequential single-lane pass produces.  The model computes with exact
rational arithmetic, so "equal up to floating-point tolerance" is
established as exact equality: no update is lost. -/
theorem par_assemble_eq_sequential (lf : LinearFormData)
    (its : List Integrator) (k : Nat) (gv : List ℚ) (hk : 0 < k) :
    parAssemble lf its k gv = Assemble lf its gv := by
  have hint : ∀ (it : Integrator) (acc : List ℚ),
      parAssembleIntegrator lf it k acc = assembleIntegrator lf it acc := by
    intro it acc
    refine getD_ext _ _ ?_ ?_
    · rw [assembleIntegrator_length]
      exact parFold_length lf it k acc.length _ _ rfl
    · intro j
      unfold parAssembleIntegrator
      rw [parFold_getD lf it k acc.length k acc rfl j, assembleIntegrator_getD]
      congr 1
      by_cases hj : j < acc.length
      · simp only [laneVector_getD, if_pos hj]
        rw [Finset.sum_comm]
        refine Finset.sum_congr rfl ?_
        intro e _
        have hmem : e % k ∈ Finset.range k :=
          Finset.mem_range.mpr (Nat.mod_lt e hk)
        calc ∑ lane ∈ Finset.range k,
              (if e % k = lane then (1 : ℚ) else 0) *
                pairContrib (lf.elemToDof.getD e []) (localVec lf it e) j
            = ∑ lane ∈ Finset.range k,
              (if e % k = lane then
                pairContrib (lf.elemToDof.getD e []) (localVec lf it e) j
               else 0) := by
              refine Finset.sum_congr rfl ?_
              intro lane _
              by_cases h : e % k = lane
              · simp [h]
              · simp [h]
          _ = pairContrib (lf.elemToDof.getD e []) (localVec lf it e) j := by
              rw [Finset.sum_ite_eq]
              simp [hmem]
      · simp only [laneVector_getD, if_neg hj, Finset.sum_const_zero]
  have hfold : ∀ (l : List Integrator) (acc : List ℚ),
      l.foldl (fun acc it => parAssembleIntegrator lf it k acc) acc =
        l.foldl (fun acc it => assembleIntegrator lf it acc) acc := by
    intro l
    induction l with
    | nil => intro acc; rfl
    | cons it l ih => intro acc; simp [List.foldl_cons, hint, ih]
  unfold parAssemble Assemble
  exact hfold its (resetVec gv)

theorem par_assemble_eq_sequential_witness :
    0 < 4 ∧ parAssemble lfEx [itEx] 4 [0, 0, 0, 0] =
      Assemble lfEx [itEx] [0, 0, 0, 0] :=
  ⟨by norm_num, par_assemble_eq_sequential lfEx [itEx] 4 [0, 0, 0, 0] (by norm_num)⟩

/-- The assembly-relevant state of a host `LinearForm`: the read-only mesh
tables, the registered integrators, and the owned global vector. -/
structure LFState where
  attributes : List Int
  elemToDof : List (List (Nat × Int))
  integrators : List Integrator
  gv : List ℚ

/-- One `Assemble()` call on the host state: the global vector is replaced
by the assembled one; nothing else is written. -/
def AssembleState (s : LFState) : LFState :=
  LFState.mk s.attributes s.elemToDof s.integrators
    (Assemble (LinearFormData.mk s.attributes s.elemToDof) s.integrators s.gv)

/-- C8 — the frame contract of `Assemble()`: the call consumes no
arguments and its only effect on the host state is the mutation of the
global vector in place — the attribute table, the element-to-dof map and
the integrator list are untouched, and the vector is never reallocated or
resized (its length is preserved). -/
theorem assemble_frame (s : LFState) :
    (AssembleState s).attributes = s.attributes ∧
    (AssembleState s).elemToDof = s.elemToDof ∧
    (AssembleState s).integrators = s.integrators ∧
    (AssembleState s).gv.length = s.gv.length :=
  ⟨rfl, rfl, rfl, Assemble_length _ _ _⟩

/-- Euclidean norm of a vector, `Vector::Norml2` as used by
`GradientCoefficient::Eval` in `examples/heat.cpp`, with real numbers in
place of doubles. -/
noncomputable def norml2 (v : List ℝ) : ℝ :=
  Real.sqrt ((v.map fun x => x ^ 2).sum)

/-- Body of `GradientCoefficient::Eval` from `examples/heat.cpp`: the
gradient vector `V` of the field `u` is divided in place by
`-(V.Norml2() + 1e-12)`. -/
noncomputable def GradientCoefficientEval (v : List ℝ) : List ℝ :=
  v.map fun x => x / -(norml2 v + 1e-12)

theorem norml2_nonneg (v : List ℝ) : 0 ≤ norml2 v :=
  Real.sqrt_nonneg _

theorem sum_sq_nonneg (v : List ℝ) : 0 ≤ (v.map fun x => x ^ 2).sum := by
  refine List.sum_nonneg ?_
  intro y hy
  obtain ⟨x, _, rfl⟩ := List.mem_map.mp hy
  exact sq_nonneg x

theorem sum_map_mul_const (v : List ℝ) (d : ℝ) :
    (v.map fun x => x ^ 2 * d).sum = (v.map fun x => x ^ 2).sum * d := by
  induction v with
  | nil => simp
  | cons a tl ih =>
      simp only [List.map_cons, List.sum_cons, ih]
      ring

/-- C9 — `GradientCoefficient::Eval` is safe and normalizing: the
denominator `norm + 1e-12` (with `norm` the non-negative Euclidean norm of
the gradient) is at least `1e-12`, hence strictly positive, so the
division is never by zero; the returned vector is the gradient scaled by
`-1 / (norm + 1e-12)` and its Euclidean norm is at most `1`. -/
theorem gradient_eval_safe (v : List ℝ) :
    (1e-12 : ℝ) ≤ norml2 v + 1e-12 ∧
    0 < norml2 v + 1e-12 ∧
    GradientCoefficientEval v =
      v.map (fun x => x * (-(1 / (norml2 v + 1e-12)))) ∧
    norml2 (GradientCoefficientEval v) ≤ 1 := by
  have heps : (0 : ℝ) < 1e-12 := by norm_num
  have hn : 0 ≤ norml2 v := norml2_nonneg v
  have hS : 0 ≤ (v.map fun x => x ^ 2).sum := sum_sq_nonneg v
  set c : ℝ := norml2 v + 1e-12 with hc
  have hcpos : 0 < c := by positivity
  refine ⟨le_add_of_nonneg_left hn, hcpos, ?_, ?_⟩
  · unfold GradientCoefficientEval
    rw [← hc]
    refine List.map_congr_left ?_
    intro x _
    rw [div_neg, div_eq_mul_inv, mul_neg, one_div]
  · have hmaps : (GradientCoefficientEval v).map (fun x => x ^ 2) =
        v.map fun x => x ^ 2 * (c ^ 2)⁻¹ := by
      unfold GradientCoefficientEval
      rw [← hc, List.map_map]
      refine List.map_congr_left ?_
      intro x _
      show (x / -c) ^ 2 = x ^ 2 * (c ^ 2)⁻¹
      rw [div_pow, neg_sq, div_eq_mul_inv]
    have hsum : ((GradientCoefficientEval v).map fun x => x ^ 2).sum =
        (v.map fun x => x ^ 2).sum * (c ^ 2)⁻¹ := by
      rw [hmaps, sum_map_mul_const]
    unfold norml2
    rw [hsum, Real.sqrt_mul hS, Real.sqrt_inv, Real.sqrt_sq hcpos.le,
      ← div_eq_mul_inv, div_le_one hcpos]
    show Real.sqrt ((v.map fun x => x ^ 2).sum) ≤ c
    rw [hc]
    exact le_add_of_nonneg_right heps.le

/-- Base geometry types of mesh elements (the `Geometry::Type` cases the
example program can meet). -/
inductive Geometry where
  | POINT
  | SEGMENT
  | TRIANGLE
  | SQUARE
  | TETRAHEDRON
  | CUBE
  | PRISM
  | PYRAMID
  deriving DecidableEq

/-- Mesh-size switch from `main` in `examples/heat.cpp`: given the first
element's base geometry, the total mesh volume `area` and the zone count,
produce `dx`, or abort (`MFEM_ABORT "Unknown zone type!"`, modelled as
`none`) on any other geometry. -/
noncomputable def computeDx (g : Geometry) (area zones : ℝ) : Option ℝ :=
  match g with
  | Geometry.SEGMENT => some (area / zones)
  | Geometry.SQUARE => some (Real.sqrt (area / zones))
  | Geometry.TRIANGLE => some (Real.sqrt (2 * area / zones))
  | Geometry.CUBE => some ((area / zones) ^ ((1 : ℝ) / 3))
  | Geometry.TETRAHEDRON => some ((6 * area / zones) ^ ((1 : ℝ) / 3))
  | _ => none

/-- The mesh-size stage of `main`: the computed `dx` is then divided by the
polynomial order (`dx /= order;`). -/
noncomputable def meshSizeDx (g : Geometry) (area zones order : ℝ) :
    Option ℝ :=
  (computeDx g area zones).map fun dx => dx / order

/-- The five geometry types the switch handles. -/
def supportedGeometries : List Geometry :=
  [Geometry.SEGMENT, Geometry.SQUARE, Geometry.TRIANGLE, Geometry.CUBE,
    Geometry.TETRAHEDRON]

/-- C10 — the mesh-size computation defines `dx` exactly for segment,
square, triangle, cube and tetrahedron; for any other base geometry the
program aborts there, so nothing sequenced after the switch (assembly,
solve) runs; and for each supported geometry `dx` is assigned from the
average element volume `area / zones` and then divided by the polynomial
order. -/
theorem mesh_size_dx_cases (g : Geometry) (area zones order : ℝ) :
    ((meshSizeDx g area zones order).isSome ↔ g ∈ supportedGeometries) ∧
    (g ∉ supportedGeometries →
      ∀ rest : ℝ → Option ℝ, (computeDx g area zones).bind rest = none) ∧
    meshSizeDx Geometry.SEGMENT area zones order =
      some ((area / zones) / order) ∧
    meshSizeDx Geometry.SQUARE area zones order =
      some (Real.sqrt (area / zones) / order) ∧
    meshSizeDx Geometry.TRIANGLE area zones order =
      some (Real.sqrt (2 * (area / zones)) / order) ∧
    meshSizeDx Geometry.CUBE area zones order =
      some ((area / zones) ^ ((1 : ℝ) / 3) / order) ∧
    meshSizeDx Geometry.TETRAHEDRON area zones order =
      some ((6 * (area / zones)) ^ ((1 : ℝ) / 3) / order) := by
  refine ⟨?_, ?_, ?_, ?_, ?_, ?_, ?_⟩
  · cases g <;> simp [meshSizeDx, computeDx, supportedGeometries]
  · intro h rest
    cases g <;> simp [computeDx] <;> simp [supportedGeometries] at h
  · simp [meshSizeDx, computeDx]
  · simp [meshSizeDx, computeDx]
  · simp [meshSizeDx, computeDx, mul_div_assoc]
  · simp [meshSizeDx, computeDx]
  · simp [meshSizeDx, computeDx, mul_div_assoc]

theorem mesh_size_dx_cases_witness :
    Geometry.PRISM ∉ supportedGeometries ∧
    (computeDx Geometry.PRISM 1 1).bind (fun dx => some dx) = none :=
  ⟨by decide, (mesh_size_dx_cases Geometry.PRISM 1 1 1).2.1 (by decide) _⟩

end Mfem
